import Mathlib

/-!
Verification of the EmailWorker2TG worker (the version with out-of-band link
deferral: `src/unnamed/part_000`).

Strings are modelled as `List Char`.  The sections below embed, in order:
the MarkdownV2 escaper (`escapeMarkdownV2`, part_000 lines 10-13), the
placeholder-marker split and the chunker of `sendSplitMessage`
(part_000 lines 15-62), the streaming HTML transducer `ElementHandler`
(part_000 lines 155-211), and the control-flow skeleton of the `email`
entry point (part_000 lines 239-305).
-/

namespace EmailWorker

/-- `MAX_TELEGRAM_MESSAGE_LENGTH` (part_000 line 4). -/
def MAX_LEN : Nat := 3500

/-- The reserved character class of the regex
`/(?<!\\)[_*\[\]()~`>#+\-=|{}.!]/g` (part_000 line 11). -/
def reservedChars : List Char :=
  ['_', '*', '[', ']', '(', ')', '~', Char.ofNat 96, '>', '#', '+', '-', '=',
   '|', Char.ofNat 123, Char.ofNat 125, '.', '!']

/-- One scan step of the global regex replace `text.replace(chars, '\\$&')`:
a reserved character is prefixed with a backslash unless the previous
character of the *input* is a backslash (the `(?<!\\)` lookbehind).
`prevBS` records whether the previous input character was a backslash. -/
def escChar (prevBS : Bool) (c : Char) : List Char :=
  if reservedChars.contains c && !prevBS then ['\\', c] else [c]

/-- The scan of `escapeMarkdownV2` over the input, threading the
lookbehind state. -/
def escGo (prevBS : Bool) : List Char → List Char
  | [] => []
  | c :: cs => escChar prevBS c ++ escGo (c == '\\') cs

/-- `escapeMarkdownV2` (part_000 lines 10-13): every character of the
reserved set not already preceded by a backslash is prefixed with one. -/
def escapeMarkdownV2 (s : List Char) : List Char := escGo false s

theorem backslash_not_reserved : reservedChars.contains '\\' = false := by
  decide

theorem reserved_ne_backslash {c : Char} (h : reservedChars.contains c = true) :
    (c == '\\') = false := by
  cases hbe : c == '\\' with
  | false => rfl
  | true =>
    have : c = '\\' := by simpa using hbe
    rw [this] at h
    exact absurd h (by decide)

theorem escGo_escGo (s : List Char) : ∀ b : Bool, escGo b (escGo b s) = escGo b s := by
  induction s with
  | nil => intro b; rfl
  | cons c cs ih =>
    intro b
    by_cases hres : reservedChars.contains c = true
    · have hcb : (c == '\\') = false := reserved_ne_backslash hres
      have hmem : c ∈ reservedChars := by simpa using hres
      have hbsmem : ('\\' : Char) ∉ reservedChars := by decide
      cases b with
      | false =>
        have h1 : escGo false (c :: cs) = '\\' :: c :: escGo false cs := by
          simp [escGo, escChar, hmem, hcb]
        rw [h1]
        have h2 : escGo false ('\\' :: c :: escGo false cs)
            = '\\' :: escGo true (c :: escGo false cs) := by
          simp [escGo, escChar, hbsmem]
        have h3 : escGo true (c :: escGo false cs)
            = c :: escGo false (escGo false cs) := by
          simp [escGo, escChar, hmem, hcb]
        rw [h2, h3, ih false]
      | true =>
        have h1 : escGo true (c :: cs) = c :: escGo false cs := by
          simp [escGo, escChar, hmem, hcb]
        rw [h1]
        have h2 : escGo true (c :: escGo false cs)
            = c :: escGo false (escGo false cs) := by
          simp [escGo, escChar, hmem, hcb]
        rw [h2, ih false]
    · have hnm : c ∉ reservedChars := by simpa using hres
      have h1 : ∀ (b' : Bool) (xs : List Char),
          escGo b' (c :: xs) = c :: escGo (c == '\\') xs := by
        intro b' xs
        simp [escGo, escChar, hnm]
      rw [h1 b cs, h1 b (escGo (c == '\\') cs), ih (c == '\\')]

/-- **C4.** `escapeMarkdownV2` is idempotent: escaping already-escaped text
produces no additional escape characters (part_000 lines 10-13; the
`(?<!\\)` lookbehind leaves characters that are already preceded by a
backslash untouched, and the inserted backslash itself is never in the
reserved set). -/
theorem c4_escape_idempotent (s : List Char) :
    escapeMarkdownV2 (escapeMarkdownV2 s) = escapeMarkdownV2 s :=
  escGo_escGo s false

/-! ## Placeholder markers and the split of `sendSplitMessage`

The placeholder marker is `'#'.repeat(15)` (part_000 lines 15, 193, 200)
and the chunker splits the input on `/#{15}/` (part_000 line 42), i.e. on
greedy, left-to-right, non-overlapping runs of 15 `#` characters.  The scan
is implemented with a counter `k` of currently pending consecutive `#`
characters (0 ≤ k ≤ 14); when the 15th is seen a marker match is recorded. -/

/-- The placeholder marker `'#'.repeat(15)` (part_000 line 193). -/
def marker : List Char := List.replicate 15 '#'

/-- Number of matches of `/#{15}/` in a string (greedy, left to right,
non-overlapping), with `k` pending `#`s already seen. -/
def countMGo : Nat → List Char → Nat
  | _, [] => 0
  | k, c :: cs =>
    if c = '#' then
      if k + 1 = 15 then countMGo 0 cs + 1 else countMGo (k + 1) cs
    else countMGo 0 cs

/-- Number of placeholder markers in a string: the number of matches of the
split pattern `/#{15}/` of part_000 line 42. -/
def countM (s : List Char) : Nat := countMGo 0 s

/-- The scan behind `text.split(/#{15}/)`: `acc` holds the current fragment
reversed, `k` the pending run of `#`s not yet committed to the fragment. -/
def splitGo (acc : List Char) (k : Nat) : List Char → List (List Char)
  | [] => [acc.reverse ++ List.replicate k '#']
  | c :: cs =>
    if c = '#' then
      if k + 1 = 15 then acc.reverse :: splitGo [] 0 cs
      else splitGo acc (k + 1) cs
    else splitGo (c :: (List.replicate k '#' ++ acc)) 0 cs

/-- `text.split(linkReplacer)` (part_000 lines 15, 42): fragments between
the marker matches, in order (the matches themselves are discarded). -/
def splitOnMarker (s : List Char) : List (List Char) := splitGo [] 0 s

theorem splitGo_length (s : List Char) :
    ∀ acc k, (splitGo acc k s).length = countMGo k s + 1 := by
  induction s with
  | nil => intro acc k; rfl
  | cons c cs ih =>
    intro acc k
    by_cases hc : c = '#'
    · by_cases hk : k + 1 = 15
      · simp [splitGo, countMGo, hc, hk, ih]
      · simp [splitGo, countMGo, hc, hk, ih]
    · simp [splitGo, countMGo, hc, ih]

theorem splitOnMarker_length (s : List Char) :
    (splitOnMarker s).length = countM s + 1 :=
  splitGo_length s [] 0

theorem splitOnMarker_ne_nil (s : List Char) : splitOnMarker s ≠ [] := by
  intro h
  have := splitOnMarker_length s
  rw [h] at this
  simp at this

/-! ## The chunker / link reinserter (`sendSplitMessage`, part_000 lines 34-62) -/

/-- A link queue entry `{ desc, link }` (part_000 lines 50-52, 192, 199). -/
structure LinkD where
  desc : List Char
  link : List Char
deriving DecidableEq

/-- The rendered inline markup `` ` [${link.desc}](${link.link}) ` ``
(part_000 line 52). -/
def linkEntity (l : LinkD) : List Char :=
  [' ', '['] ++ l.desc ++ [']', '('] ++ l.link ++ [')', ' ']

theorem linkEntity_length (l : LinkD) :
    (linkEntity l).length = l.desc.length + l.link.length + 6 := by
  simp [linkEntity]
  omega

theorem linkEntity_ne_nil (l : LinkD) : linkEntity l ≠ [] := by
  simp [linkEntity]

/-- `splitAndPush` (part_000 lines 17-26): cuts `MAX_LEN`-sized prefixes off
the front of `text`, returning the list of full-size chunks pushed and the
final remainder (strictly shorter than `MAX_LEN`). -/
def splitAndPush (text : List Char) : List (List Char) × List Char :=
  if _h : text.length < MAX_LEN then ([], text)
  else
    let r := splitAndPush (text.drop MAX_LEN)
    (text.take MAX_LEN :: r.1, r.2)
termination_by text.length
decreasing_by
  simp only [List.length_drop]
  simp only [MAX_LEN] at *
  omega

theorem splitAndPush_spec_aux :
    ∀ (n : Nat) (text : List Char), text.length ≤ n →
      (∀ c ∈ (splitAndPush text).1, c.length = MAX_LEN) ∧
        (splitAndPush text).2.length < MAX_LEN := by
  intro n
  induction n with
  | zero =>
    intro text h
    have hlt : text.length < MAX_LEN := by
      simp only [MAX_LEN]; omega
    rw [splitAndPush]
    refine ⟨?_, ?_⟩
    · intro c hc
      simp [hlt] at hc
    · simp [hlt]
  | succ n ih =>
    intro text h
    by_cases hlt : text.length < MAX_LEN
    · rw [splitAndPush]
      refine ⟨?_, ?_⟩
      · intro c hc
        simp [hlt] at hc
      · simp [hlt]
    · have hdrop : (text.drop MAX_LEN).length ≤ n := by
        simp only [List.length_drop]
        simp only [MAX_LEN] at *
        omega
      have hrec := ih (text.drop MAX_LEN) hdrop
      rw [splitAndPush]
      simp only [dif_neg hlt]
      refine ⟨?_, hrec.2⟩
      intro c hc
      rcases List.mem_cons.mp hc with h1 | h1
      · subst h1
        simp only [List.length_take]
        omega
      · exact hrec.1 c h1

theorem splitAndPush_chunks (text : List Char) :
    ∀ c ∈ (splitAndPush text).1, c.length = MAX_LEN :=
  (splitAndPush_spec_aux text.length text le_rfl).1

theorem splitAndPush_rem (text : List Char) :
    (splitAndPush text).2.length < MAX_LEN :=
  (splitAndPush_spec_aux text.length text le_rfl).2

/-- The builder-overflow handling of one loop iteration (part_000
lines 46-49): append the fragment, and if the builder exceeds `MAX_LEN`
cut it down with `splitAndPush`. -/
def stepSplit (b t : List Char) : List (List Char) × List Char :=
  if MAX_LEN < (b ++ t).length then splitAndPush (b ++ t) else ([], b ++ t)

/-- The link handling of one loop iteration (part_000 lines 50-58):
`linksList.shift()`; if a link was present, flush the builder when the
rendered entity does not fit, then append the entity. -/
def stepLink (cs : List (List Char)) (b : List Char) :
    List LinkD → List (List Char) × List Char × List LinkD
  | [] => (cs, b, [])
  | l :: q' =>
    if MAX_LEN < b.length + (linkEntity l).length then (cs ++ [b], linkEntity l, q')
    else (cs, b ++ linkEntity l, q')

/-- One full iteration of the `for (let t of splits)` loop of
`sendSplitMessage` (part_000 lines 45-59). -/
def chunkStep (b t : List Char) (q : List LinkD) :
    List (List Char) × List Char × List LinkD :=
  stepLink (stepSplit b t).1 (stepSplit b t).2 q

/-- The whole `for (let t of splits)` loop (part_000 lines 45-59), returning
the chunks pushed, the final builder, and the remaining queue. -/
def chunkLoop : List (List Char) → List Char → List LinkD →
    List (List Char) × List Char × List LinkD
  | [], b, q => ([], b, q)
  | t :: ts, b, q =>
    let r1 := chunkStep b t q
    let r2 := chunkLoop ts r1.2.1 r1.2.2
    (r1.1 ++ r2.1, r2.2.1, r2.2.2)

/-- The chunk list built by `sendSplitMessage` (part_000 lines 38-62):
split on the marker pattern, run the loop from an empty builder, and flush
a non-empty final builder. -/
def makeChunks (text : List Char) (q : List LinkD) : List (List Char) :=
  let r := chunkLoop (splitOnMarker text) [] q
  r.1 ++ (if r.2.1 = [] then [] else [r.2.1])

/-- The link queue left over after the chunk-building loop of
`sendSplitMessage` completes (the module-scoped `linksList` after
part_000 line 59). -/
def leftoverQueue (text : List Char) (q : List LinkD) : List LinkD :=
  (chunkLoop (splitOnMarker text) [] q).2.2

theorem chunkStep_queue (b t : List Char) (q : List LinkD) :
    (chunkStep b t q).2.2 = q.tail := by
  cases q with
  | nil => simp [chunkStep, stepLink]
  | cons l q' =>
    simp only [chunkStep, stepLink]
    split <;> rfl

theorem chunkLoop_queue (ts : List (List Char)) :
    ∀ b q, (chunkLoop ts b q).2.2 = q.drop ts.length := by
  induction ts with
  | nil => intro b q; rfl
  | cons t ts ih =>
    intro b q
    simp only [chunkLoop, ih, chunkStep_queue, List.length_cons]
    rw [← List.drop_one, List.drop_drop]
    congr 1
    omega

/-- **C7.** If the link queue's length equals the number of placeholder
markers in the text, the queue is empty after the chunking loop of
`sendSplitMessage` completes: the loop runs once per split fragment
(= markers + 1 iterations) and shifts one descriptor per iteration while
any remain (part_000 lines 42-59). -/
theorem c7_queue_drained (text : List Char) (q : List LinkD)
    (h : q.length = countM text) : leftoverQueue text q = [] := by
  unfold leftoverQueue
  rw [chunkLoop_queue, splitOnMarker_length]
  exact List.drop_eq_nil_of_le (by omega)

/-- Witness for C7 at a concrete input: one marker, one queued link. -/
theorem c7_queue_drained_witness :
    ([⟨['a'], ['b']⟩] : List LinkD).length = countM (List.replicate 15 '#') ∧
      leftoverQueue (List.replicate 15 '#') [⟨['a'], ['b']⟩] = [] :=
  ⟨by decide, c7_queue_drained (List.replicate 15 '#') [⟨['a'], ['b']⟩] (by decide)⟩

theorem stepSplit_builder (b t : List Char) :
    (stepSplit b t).2.length ≤ MAX_LEN := by
  unfold stepSplit
  split
  · exact Nat.le_of_lt (splitAndPush_rem (b ++ t))
  · show (b ++ t).length ≤ MAX_LEN
    omega

theorem stepSplit_chunks (b t : List Char) :
    ∀ c ∈ (stepSplit b t).1, c.length ≤ MAX_LEN := by
  unfold stepSplit
  split
  · intro c hc
    exact Nat.le_of_eq (splitAndPush_chunks (b ++ t) c hc)
  · intro c hc
    simp at hc

theorem chunkStep_chunks (b t : List Char) (q : List LinkD) :
    ∀ c ∈ (chunkStep b t q).1, c.length ≤ MAX_LEN := by
  unfold chunkStep
  cases q with
  | nil =>
    simp only [stepLink]
    exact stepSplit_chunks b t
  | cons l q' =>
    simp only [stepLink]
    split
    · intro c hc
      rcases List.mem_append.mp hc with h1 | h1
      · exact stepSplit_chunks b t c h1
      · rw [List.mem_singleton.mp h1]
        exact stepSplit_builder b t
    · exact stepSplit_chunks b t

theorem chunkLoop_chunks (ts : List (List Char)) :
    ∀ b q, ∀ c ∈ (chunkLoop ts b q).1, c.length ≤ MAX_LEN := by
  induction ts with
  | nil =>
    intro b q c hc
    simp [chunkLoop] at hc
  | cons t ts ih =>
    intro b q c hc
    simp only [chunkLoop] at hc
    rcases List.mem_append.mp hc with h1 | h1
    · exact chunkStep_chunks b t q c h1
    · exact ih _ _ c h1

theorem chunkStep_builder_nilq (b t : List Char) :
    (chunkStep b t []).2.1 = (stepSplit b t).2 := by
  simp [chunkStep, stepLink]

/-- Whenever the loop still has at least one fragment to process after the
queue is exhausted (queue strictly shorter than the fragment list), the
final builder is within the size bound: the last iteration appends no link
entity, and the split step leaves the builder at most `MAX_LEN` long. -/
theorem chunkLoop_final_builder :
    ∀ (ts : List (List Char)) (b : List Char) (q : List LinkD), ts ≠ [] →
      q.length < ts.length → (chunkLoop ts b q).2.1.length ≤ MAX_LEN := by
  intro ts
  induction ts with
  | nil => intro b q h; exact absurd rfl h
  | cons t ts ih =>
    intro b q _ hq
    cases ts with
    | nil =>
      have hq0 : q = [] := by
        have : q.length = 0 := by
          simp only [List.length_cons, List.length_nil] at hq
          omega
        exact List.eq_nil_of_length_eq_zero this
      subst hq0
      simp only [chunkLoop, chunkStep_builder_nilq]
      exact stepSplit_builder b t
    | cons t2 ts2 =>
      simp only [chunkLoop]
      apply ih _ _ (by simp)
      rw [chunkStep_queue]
      rcases q with _ | ⟨l, q'⟩
      · simp only [List.tail_nil, List.length_nil, List.length_cons]
        omega
      · simp only [List.tail_cons]
        simp only [List.length_cons] at hq ⊢
        omega

/-- **C1 (amended).** Provided the link queue is no longer than the number
of placeholder markers in the text (the invariant established by the
transducer), every chunk produced by `sendSplitMessage` has length at most
`MAX_LEN` = 3500 (part_000 lines 17-26, 42-62). -/
theorem c1_size_bound (text : List Char) (q : List LinkD)
    (h : q.length ≤ countM text) :
    ∀ c ∈ makeChunks text q, c.length ≤ MAX_LEN := by
  intro c hc
  unfold makeChunks at hc
  rcases List.mem_append.mp hc with h1 | h1
  · exact chunkLoop_chunks _ _ _ c h1
  · have hb : c = (chunkLoop (splitOnMarker text) [] q).2.1 := by
      by_cases hnil : (chunkLoop (splitOnMarker text) [] q).2.1 = []
      · simp [hnil] at h1
      · simp only [if_neg hnil] at h1
        exact List.mem_singleton.mp h1
    rw [hb]
    apply chunkLoop_final_builder _ _ _ (splitOnMarker_ne_nil text)
    rw [splitOnMarker_length]
    omega

/-- Witness for C1 (amended) at a concrete input. -/
theorem c1_size_bound_witness :
    ([] : List LinkD).length ≤ countM ['h', 'i'] ∧
      ∀ c ∈ makeChunks ['h', 'i'] [], c.length ≤ MAX_LEN :=
  ⟨by decide, c1_size_bound ['h', 'i'] [] (by decide)⟩

/-- **C1 counterexample.** With the empty text and a queue holding one link
whose rendered entity is 3507 characters long, `sendSplitMessage` builds a
chunk of length 3507 > 3500: the loop's final flush (part_000 lines 60-62)
pushes the oversized builder unsplit.  (It also pushes an empty chunk at
part_000 line 54.) -/
theorem c1_counterexample_general (l : LinkD)
    (hbig : MAX_LEN < (linkEntity l).length) :
    makeChunks [] [l] = [[], linkEntity l] := by
  have hne : linkEntity l ≠ [] := linkEntity_ne_nil l
  have hs1 : stepSplit [] [] = ([], []) := by
    simp [stepSplit, MAX_LEN]
  have hcond : MAX_LEN < ([] : List Char).length + (linkEntity l).length := by
    simpa using hbig
  have hs2 : chunkStep [] [] [l] = ([[]], linkEntity l, []) := by
    simp only [chunkStep, hs1, stepLink, if_pos hcond]
    simp
  have hs3 : chunkLoop [[]] [] [l] = ([[]], linkEntity l, []) := by
    simp only [chunkLoop, hs2]
    simp [chunkLoop]
  unfold makeChunks
  rw [show splitOnMarker [] = [[]] from rfl, hs3]
  simp [hne]

/-- **C1 counterexample.** With the empty text and a queue holding one link
whose rendered entity is 3507 characters long, `sendSplitMessage` builds a
chunk of length 3507 > 3500: the loop's final flush (part_000 lines 60-62)
pushes the oversized builder unsplit.  (It also pushes an empty chunk at
part_000 line 54.) -/
theorem c1_counterexample :
    1 < (makeChunks [] [⟨['a'], List.replicate 3500 'b'⟩]).length ∧
      MAX_LEN <
        ((makeChunks [] [⟨['a'], List.replicate 3500 'b'⟩]).getD 1 []).length := by
  have hlen : (linkEntity ⟨['a'], List.replicate 3500 'b'⟩).length = 3507 := by
    rw [linkEntity_length]
    norm_num [List.length_replicate]
  have hbig : MAX_LEN < (linkEntity ⟨['a'], List.replicate 3500 'b'⟩).length := by
    rw [hlen]
    norm_num [MAX_LEN]
  rw [c1_counterexample_general _ hbig]
  constructor
  · norm_num
  · have hg : ([[], linkEntity ⟨['a'], List.replicate 3500 'b'⟩] :
        List (List Char)).getD 1 [] = linkEntity ⟨['a'], List.replicate 3500 'b'⟩ := rfl
    rw [hg]
    exact hbig

/-! ## C3: atomicity of rendered link markup inside chunks -/

/-- `isPre p s`: `p` is an initial run of `s`. -/
def isPre : List Char → List Char → Bool
  | [], _ => true
  | _ :: _, [] => false
  | a :: ps, b :: ss => a == b && isPre ps ss

/-- `hasSub p s`: `p` occurs contiguously inside `s`. -/
def hasSub (p : List Char) : List Char → Bool
  | [] => p.isEmpty
  | c :: cs => isPre p (c :: cs) || hasSub p cs

theorem isPre_self_append (p : List Char) : ∀ v, isPre p (p ++ v) = true := by
  induction p with
  | nil => intro v; rfl
  | cons a ps ih =>
    intro v
    simp [isPre, ih]

theorem hasSub_of_decomp (p : List Char) :
    ∀ (u v : List Char), hasSub p (u ++ p ++ v) = true := by
  intro u
  induction u with
  | nil =>
    intro v
    cases hp : p with
    | nil =>
      cases v with
      | nil => rfl
      | cons c cs => simp [hasSub, isPre]
    | cons a ps =>
      rw [← hp]
      have : p ++ v ≠ [] := by simp [hp]
      rcases List.exists_cons_of_ne_nil this with ⟨c, cs, hcc⟩
      rw [List.nil_append, hcc, hasSub, ← hcc, isPre_self_append]
      simp
  | cons c us ih =>
    intro v
    have hassoc : (c :: us) ++ p ++ v = c :: (us ++ p ++ v) := by simp
    rw [hassoc, hasSub, ih v]
    simp

theorem hasSub_of_decomp' (p u v : List Char) :
    hasSub p (u ++ (p ++ v)) = true := by
  rw [← List.append_assoc]
  exact hasSub_of_decomp p u v

theorem isPre_length {p s : List Char} (h : isPre p s = true) :
    p.length ≤ s.length := by
  induction p generalizing s with
  | nil => simp
  | cons a ps ih =>
    cases s with
    | nil => simp [isPre] at h
    | cons b ss =>
      simp only [isPre, Bool.and_eq_true] at h
      simpa using ih h.2

theorem hasSub_length {p s : List Char} (h : hasSub p s = true) :
    p.length ≤ s.length := by
  induction s with
  | nil =>
    simp only [hasSub, List.isEmpty_iff] at h
    simp [h]
  | cons c cs ih =>
    simp only [hasSub, Bool.or_eq_true] at h
    rcases h with h | h
    · exact isPre_length h
    · exact Nat.le_trans (ih h) (by simp)

theorem hasSub_false_of_longer {p s : List Char} (h : s.length < p.length) :
    hasSub p s = false := by
  cases hh : hasSub p s with
  | false => rfl
  | true => exact absurd (hasSub_length hh) (by omega)

/-- The full chunk output (pushed chunks plus the final flush) of the loop
run from builder `b` on fragments `ts` with queue `q`
(part_000 lines 44-62). -/
def fullOut (ts : List (List Char)) (b : List Char) (q : List LinkD) :
    List (List Char) :=
  (chunkLoop ts b q).1 ++
    (if (chunkLoop ts b q).2.1 = [] then [] else [(chunkLoop ts b q).2.1])

theorem makeChunks_eq_fullOut (text : List Char) (q : List LinkD) :
    makeChunks text q = fullOut (splitOnMarker text) [] q := rfl

theorem fullOut_cons (t : List Char) (ts : List (List Char)) (b : List Char)
    (q : List LinkD) :
    fullOut (t :: ts) b q =
      (chunkStep b t q).1 ++
        fullOut ts (chunkStep b t q).2.1 (chunkStep b t q).2.2 := by
  simp [fullOut, chunkLoop, List.append_assoc]

theorem stepLink_mem (cs : List (List Char)) (b : List Char) (q : List LinkD)
    (x : List Char) (hx : x ∈ cs) : x ∈ (stepLink cs b q).1 := by
  cases q with
  | nil => exact hx
  | cons l q' =>
    simp only [stepLink]
    split
    · exact List.mem_append_left _ hx
    · exact hx

/-- The tracking lemma: once a rendered entity `e` sits in the builder with
its span inside the first `MAX_LEN` characters, it ends up contiguously
inside some produced chunk: the split step only cuts at `MAX_LEN`
boundaries past the entity's end, the flush steps emit the builder whole,
and appends happen at the builder's end. -/
theorem entity_tracked (e : List Char) (he : e ≠ []) :
    ∀ (ts : List (List Char)) (q : List LinkD) (u v : List Char),
      u.length + e.length ≤ MAX_LEN →
      ∃ c ∈ fullOut ts (u ++ (e ++ v)) q, hasSub e c = true := by
  intro ts
  induction ts with
  | nil =>
    intro q u v hu
    refine ⟨u ++ (e ++ v), ?_, hasSub_of_decomp' e u v⟩
    have hne : u ++ (e ++ v) ≠ [] := by
      simp [he]
    simp [fullOut, chunkLoop, hne]
  | cons t ts ih =>
    intro t0q u v hu
    rw [fullOut_cons]
    by_cases hsplit : MAX_LEN < ((u ++ (e ++ v)) ++ t).length
    · -- the split step fires; the first emitted chunk contains `e` whole
      have htk : ((u ++ (e ++ v)) ++ t).take MAX_LEN
          = u ++ (e ++ ((v ++ t).take (MAX_LEN - u.length - e.length))) := by
        rw [List.append_assoc, List.append_assoc, List.take_append_eq_append_take,
          List.take_of_length_le (by omega), List.take_append_eq_append_take,
          List.take_of_length_le (by omega)]
      have hmem1 : ((u ++ (e ++ v)) ++ t).take MAX_LEN
          ∈ (stepSplit (u ++ (e ++ v)) t).1 := by
        have hnlt : ¬ ((u ++ (e ++ v)) ++ t).length < MAX_LEN := by omega
        unfold stepSplit
        rw [if_pos hsplit, splitAndPush, dif_neg hnlt]
        exact List.mem_cons_self _ _
      refine ⟨((u ++ (e ++ v)) ++ t).take MAX_LEN, ?_, ?_⟩
      · exact List.mem_append_left _ (stepLink_mem _ _ _ _ hmem1)
      · rw [htk]
        exact hasSub_of_decomp' e u _
    · -- no split: the builder keeps its decomposition
      have hb2 : (stepSplit (u ++ (e ++ v)) t).2 = u ++ (e ++ (v ++ t)) := by
        unfold stepSplit
        rw [if_neg hsplit]
        simp [List.append_assoc]
      have hcs : (stepSplit (u ++ (e ++ v)) t).1 = [] := by
        unfold stepSplit
        rw [if_neg hsplit]
      cases t0q with
      | nil =>
        have hstep : chunkStep (u ++ (e ++ v)) t []
            = ([], u ++ (e ++ (v ++ t)), []) := by
          simp [chunkStep, stepLink, hb2, hcs]
        rw [hstep]
        simpa using ih [] u (v ++ t) hu
      | cons l q' =>
        by_cases hfit :
            MAX_LEN < (u ++ (e ++ (v ++ t))).length + (linkEntity l).length
        · -- entity does not fit: the builder is flushed whole, containing `e`
          have hstep : chunkStep (u ++ (e ++ v)) t (l :: q')
              = ([u ++ (e ++ (v ++ t))], linkEntity l, q') := by
            simp only [chunkStep, hcs, hb2, stepLink, if_pos hfit,
              List.nil_append]
          rw [hstep]
          exact ⟨u ++ (e ++ (v ++ t)), by simp, hasSub_of_decomp' e u _⟩
        · -- entity appended after `e`; the span hypothesis is preserved
          have hstep : chunkStep (u ++ (e ++ v)) t (l :: q')
              = ([], u ++ (e ++ (v ++ t ++ linkEntity l)), q') := by
            simp only [chunkStep, hcs, hb2, stepLink, if_neg hfit]
            simp [List.append_assoc]
          rw [hstep]
          simpa using ih q' u (v ++ t ++ linkEntity l) hu

/-- Every link in the queue, provided its rendered entity fits in `MAX_LEN`
and the queue is shorter than the fragment list, ends up contiguously
inside some produced chunk. -/
theorem queue_links_in_chunks :
    ∀ (ts : List (List Char)) (b : List Char) (q : List LinkD),
      (∀ l ∈ q, (linkEntity l).length ≤ MAX_LEN) →
      q.length < ts.length →
      ∀ l ∈ q, ∃ c ∈ fullOut ts b q, hasSub (linkEntity l) c = true := by
  intro ts
  induction ts with
  | nil =>
    intro b q _ hlen l hl
    simp at hlen
  | cons t ts ih =>
    intro b q hq hlen l hl
    cases q with
    | nil => simp at hl
    | cons l0 q' =>
      rw [fullOut_cons]
      have hq2 : (chunkStep b t (l0 :: q')).2.2 = q' := by
        rw [chunkStep_queue]
        rfl
      rcases List.mem_cons.mp hl with rfl | hl'
      · -- `l` is the link popped in this iteration
        have he : linkEntity l ≠ [] := linkEntity_ne_nil l
        have hle : (linkEntity l).length ≤ MAX_LEN := hq l (by simp)
        by_cases hfit :
            MAX_LEN < (stepSplit b t).2.length + (linkEntity l).length
        · -- flushed, then builder := entity
          have hb' : (chunkStep b t (l :: q')).2.1 = linkEntity l := by
            simp only [chunkStep, stepLink, if_pos hfit]
          rw [hb', hq2]
          have htr := entity_tracked (linkEntity l) he ts q' [] []
            (by simpa using hle)
          simp only [List.nil_append, List.append_nil] at htr
          rcases htr with ⟨c, hc1, hc2⟩
          exact ⟨c, List.mem_append_right _ hc1, hc2⟩
        · -- appended to the current builder
          have hb' : (chunkStep b t (l :: q')).2.1
              = (stepSplit b t).2 ++ linkEntity l := by
            simp only [chunkStep, stepLink, if_neg hfit]
          rw [hb', hq2]
          have htr := entity_tracked (linkEntity l) he ts q' ((stepSplit b t).2) []
            (by omega)
          simp only [List.append_nil] at htr
          rcases htr with ⟨c, hc1, hc2⟩
          exact ⟨c, List.mem_append_right _ hc1, hc2⟩
      · -- `l` is a later link: induction on the remaining fragments
        have hlen' : q'.length < ts.length := by
          simp only [List.length_cons] at hlen
          omega
        have hrec := ih (chunkStep b t (l0 :: q')).2.1 q'
          (fun x hx => hq x (List.mem_cons_of_mem _ hx)) hlen' l hl'
        rw [hq2]
        rcases hrec with ⟨c, hc1, hc2⟩
        exact ⟨c, List.mem_append_right _ hc1, hc2⟩

/-- **C3 (amended).** Provided every queued link's rendered entity fits in
`MAX_LEN` (and the queue is not longer than the number of markers, the
invariant established by the transducer), every consumed link's rendered
markup ` [desc](link) ` appears contiguously inside a single chunk: the
flush-then-append of part_000 lines 53-57 keeps it atomic. -/
theorem c3_link_atomicity (text : List Char) (q : List LinkD)
    (hq : ∀ l ∈ q, (linkEntity l).length ≤ MAX_LEN)
    (hlen : q.length ≤ countM text) :
    ∀ l ∈ q, ∃ c ∈ makeChunks text q, hasSub (linkEntity l) c = true := by
  rw [makeChunks_eq_fullOut]
  apply queue_links_in_chunks _ _ _ hq
  rw [splitOnMarker_length]
  omega

/-- Witness for C3 (amended) at a concrete input. -/
theorem c3_link_atomicity_witness :
    (∀ l ∈ ([⟨['a'], ['b']⟩] : List LinkD), (linkEntity l).length ≤ MAX_LEN) ∧
      ([⟨['a'], ['b']⟩] : List LinkD).length ≤ countM (List.replicate 15 '#') ∧
      ∀ l ∈ ([⟨['a'], ['b']⟩] : List LinkD),
        ∃ c ∈ makeChunks (List.replicate 15 '#') [⟨['a'], ['b']⟩],
          hasSub (linkEntity l) c = true :=
  ⟨by decide, by decide,
    c3_link_atomicity (List.replicate 15 '#') [⟨['a'], ['b']⟩]
      (by decide) (by decide)⟩

theorem c3_counterexample_general (l : LinkD)
    (hlen : (linkEntity l).length = 3507) :
    makeChunks (List.replicate 15 '#') [l]
      = [[], (linkEntity l).take 3500, (linkEntity l).drop 3500] := by
  have hne : linkEntity l ≠ [] := linkEntity_ne_nil l
  have hsm : splitOnMarker (List.replicate 15 '#') = [[], []] := by decide
  have hs1 : stepSplit [] [] = ([], []) := by
    simp [stepSplit, MAX_LEN]
  have hcond : MAX_LEN < ([] : List Char).length + (linkEntity l).length := by
    rw [hlen]
    norm_num [MAX_LEN]
  have hcond2 : MAX_LEN < (linkEntity l).length := by
    rw [hlen]
    norm_num [MAX_LEN]
  have hstep1 : chunkStep [] [] [l] = ([[]], linkEntity l, []) := by
    simp only [chunkStep, hs1, stepLink, if_pos hcond]
    simp
  have hsap : splitAndPush (linkEntity l)
      = ([(linkEntity l).take 3500], (linkEntity l).drop 3500) := by
    rw [splitAndPush]
    have h1 : ¬ (linkEntity l).length < MAX_LEN := by
      rw [hlen]; norm_num [MAX_LEN]
    rw [dif_neg h1, splitAndPush]
    have h2 : ((linkEntity l).drop MAX_LEN).length < MAX_LEN := by
      simp only [List.length_drop, hlen]
      norm_num [MAX_LEN]
    rw [dif_pos h2]
    simp [MAX_LEN]
  have hstep2 : chunkStep (linkEntity l) [] []
      = ([(linkEntity l).take 3500], (linkEntity l).drop 3500, []) := by
    simp only [chunkStep, stepSplit, List.append_nil, if_pos hcond2, hsap,
      stepLink]
  have hdropne : (linkEntity l).drop 3500 ≠ [] := by
    intro h
    have hdl := congrArg List.length h
    simp only [List.length_drop, hlen, List.length_nil] at hdl
    omega
  rw [makeChunks_eq_fullOut, hsm, fullOut_cons, hstep1]
  simp only [fullOut_cons]
  rw [hstep2]
  simp [fullOut, chunkLoop, hdropne]

theorem c3_counterexample_general2 (l : LinkD)
    (hlen : (linkEntity l).length = 3507) :
    ((makeChunks (List.replicate 15 '#') [l]).filter
        (fun c => hasSub (linkEntity l) c)).length = 0 ∧
      leftoverQueue (List.replicate 15 '#') [l] = [] := by
  constructor
  · rw [c3_counterexample_general l hlen]
    have h1 : hasSub (linkEntity l) [] = false := by
      apply hasSub_false_of_longer
      rw [hlen]
      norm_num
    have h2 : hasSub (linkEntity l) ((linkEntity l).take 3500) = false := by
      apply hasSub_false_of_longer
      simp only [List.length_take, hlen]
      norm_num
    have h3 : hasSub (linkEntity l) ((linkEntity l).drop 3500) = false := by
      apply hasSub_false_of_longer
      simp only [List.length_drop, hlen]
      norm_num
    simp [List.filter, h1, h2, h3]
  · unfold leftoverQueue
    rw [chunkLoop_queue]
    have hsl : (splitOnMarker (List.replicate 15 '#')).length = 2 := by decide
    rw [hsl]
    rfl

/-- **C3 counterexample.** With one marker and one queued link whose
rendered entity is 3507 characters long, the entity is rendered and
consumed (the queue is drained), yet no chunk contains it contiguously: the
split of part_000 lines 47-48 cuts it into a 3500-character chunk and a
507-character remainder. -/
theorem c3_counterexample :
    ((makeChunks (List.replicate 15 '#') [⟨['a'], List.replicate 3500 'b'⟩]).filter
        (fun c => hasSub (linkEntity ⟨['a'], List.replicate 3500 'b'⟩) c)).length = 0 ∧
      leftoverQueue (List.replicate 15 '#') [⟨['a'], List.replicate 3500 'b'⟩] = [] :=
  c3_counterexample_general2 ⟨['a'], List.replicate 3500 'b'⟩
    (by rw [linkEntity_length]; norm_num [List.length_replicate])

/-! ## Counting markers across concatenations of clean pieces

The transducer emits a sequence of pieces: escaped literals and
15-`#` markers.  Escaped literals never contain two adjacent `#`s and never
start with `#` (every `#` in `escapeMarkdownV2`'s output is immediately
preceded by a backslash), which is what makes the marker count of the
concatenation equal to the number of marker pieces. -/

/-- No two adjacent `#` characters. -/
def noDD : List Char → Bool
  | [] => true
  | c :: cs => !((c == '#') && (cs.head? == some '#')) && noDD cs

/-- The first character (if any) is not `#`. -/
def headOK : List Char → Bool
  | [] => true
  | c :: _ => !(c == '#')

/-- Length of the trailing `#` run of a string with no `##`: 0 or 1. -/
def hashTail (s : List Char) : Nat := if s.getLast? = some '#' then 1 else 0

theorem hashTail_le (s : List Char) : hashTail s ≤ 1 := by
  unfold hashTail
  split <;> omega

theorem countMGo_nil (k : Nat) : countMGo k [] = 0 := rfl

/-- Scanning a `##`-free string: no marker matches inside, and the scan
leaves with the trailing-run state. -/
theorem scanNoDD :
    ∀ (s : List Char) (k : Nat) (u : List Char), noDD s = true →
      (headOK s = true ∨ k = 0) → k ≤ 14 → s ≠ [] →
      countMGo k (s ++ u) = countMGo (hashTail s) u := by
  intro s
  induction s with
  | nil => intro k u _ _ _ hne; exact absurd rfl hne
  | cons c cs ih =>
    intro k u hdd hhd hk _
    cases cs with
    | nil =>
      by_cases hc : c = '#'
      · subst hc
        have hk0 : k = 0 := by
          rcases hhd with h | h
          · simp [headOK] at h
          · exact h
        subst hk0
        simp [countMGo, hashTail]
      · simp [countMGo, hc, hashTail]
    | cons c2 cs2 =>
      have hdd2 : noDD (c2 :: cs2) = true := by
        have h := hdd
        rw [noDD, Bool.and_eq_true] at h
        exact h.2
      have hpair : c = '#' → c2 ≠ '#' := by
        intro hc hc2
        have h := hdd
        rw [noDD, Bool.and_eq_true] at h
        have h1 := h.1
        rw [hc, hc2] at h1
        simp [List.head?] at h1
      have htail : hashTail (c :: c2 :: cs2) = hashTail (c2 :: cs2) := by
        simp [hashTail, List.getLast?_cons_cons]
      rw [htail]
      by_cases hc : c = '#'
      · subst hc
        have hk0 : k = 0 := by
          rcases hhd with h | h
          · simp [headOK] at h
          · exact h
        subst hk0
        have hc2 : c2 ≠ '#' := hpair rfl
        have hstep : countMGo 0 (('#' :: c2 :: cs2) ++ u)
            = countMGo 1 ((c2 :: cs2) ++ u) := by
          simp [countMGo]
        rw [hstep]
        exact ih 1 u hdd2 (Or.inl (by simp [headOK, hc2])) (by omega) (by simp)
      · have hstep : countMGo k ((c :: c2 :: cs2) ++ u)
            = countMGo 0 ((c2 :: cs2) ++ u) := by
          simp [countMGo, hc]
        rw [hstep]
        exact ih 0 u hdd2 (Or.inr rfl) (by omega) (by simp)

/-- Scanning a short run of `#`s from pending state `k`. -/
theorem countMGo_hashRun :
    ∀ (j k : Nat) (u : List Char), k ≤ 14 → k + j ≤ 15 →
      countMGo k (List.replicate j '#' ++ u)
        = if k + j = 15 then countMGo 0 u + 1 else countMGo (k + j) u := by
  intro j
  induction j with
  | zero =>
    intro k u hk _
    have h0 : ¬ k = 15 := by omega
    simp [h0]
  | succ j ih =>
    intro k u hk hkj
    rw [List.replicate_succ, List.cons_append]
    by_cases h15 : k + 1 = 15
    · have hj0 : j = 0 := by omega
      subst hj0
      have hcond : k + (0 + 1) = 15 := by omega
      simp [countMGo, h15, hcond]
    · have : countMGo k ('#' :: (List.replicate j '#' ++ u))
          = countMGo (k + 1) (List.replicate j '#' ++ u) := by
        simp [countMGo, h15]
      rw [this, ih (k + 1) u (by omega) (by omega)]
      have he : k + 1 + j = k + (j + 1) := by omega
      rw [he]

/-- Scanning one full marker from pending state `k ≤ 14`: exactly one match,
and the scan re-enters state `k`. -/
theorem countMGo_marker (k : Nat) (u : List Char) (hk : k ≤ 14) :
    countMGo k (marker ++ u) = countMGo k u + 1 := by
  have hsplit : marker = List.replicate (15 - k) '#' ++ List.replicate k '#' := by
    rw [marker, ← List.replicate_add]
    congr 1
    omega
  rw [hsplit, List.append_assoc, countMGo_hashRun (15 - k) k _ hk (by omega)]
  have hcond : k + (15 - k) = 15 := by omega
  rw [if_pos hcond, countMGo_hashRun k 0 u (by omega) (by omega)]
  have h2 : ¬ k = 15 := by omega
  simp only [Nat.zero_add]
  rw [if_neg h2]

theorem countM_of_clean {s : List Char} (hdd : noDD s = true)
    (_hhd : headOK s = true) : countM s = 0 := by
  cases hs : s with
  | nil => rfl
  | cons c cs =>
    rw [← hs]
    unfold countM
    have := scanNoDD s 0 [] hdd (Or.inr rfl) (by omega) (by simp [hs])
    rw [List.append_nil] at this
    rw [this, countMGo_nil]

/-! ### The escaper's output is clean -/

theorem hash_reserved : reservedChars.contains '#' = true := by decide

theorem escGo_headOK (s : List Char) : headOK (escGo false s) = true := by
  cases s with
  | nil => rfl
  | cons c cs =>
    by_cases hres : reservedChars.contains c = true
    · have hmem : c ∈ reservedChars := by simpa using hres
      simp [escGo, escChar, hmem, headOK]
    · have hnm : c ∉ reservedChars := by simpa using hres
      have hch : (c == '#') = false := by
        cases hcc : c == '#' with
        | false => rfl
        | true =>
          have : c = '#' := by simpa using hcc
          rw [this] at hres
          exact absurd hash_reserved hres
      simp [escGo, escChar, hnm, headOK, hch]

theorem noDD_cons (c : Char) (t : List Char)
    (h : (c == '#') = false ∨ headOK t = true) (ht : noDD t = true) :
    noDD (c :: t) = true := by
  simp only [noDD, Bool.and_eq_true, Bool.not_eq_true', Bool.and_eq_false_iff]
  refine ⟨?_, ht⟩
  rcases h with h | h
  · exact Or.inl h
  · right
    cases t with
    | nil => simp
    | cons x xs =>
      simp only [headOK, Bool.not_eq_true'] at h
      simp [List.head?, h]

theorem escGo_noDD (s : List Char) : ∀ b, noDD (escGo b s) = true := by
  induction s with
  | nil => intro b; rfl
  | cons c cs ih =>
    intro b
    have htail : noDD (escGo (c == '\\') cs) = true := ih (c == '\\')
    have hcT : (c == '#') = false ∨ headOK (escGo (c == '\\') cs) = true := by
      by_cases hc : c = '#'
      · right
        have : (c == '\\') = false := by
          rw [hc]
          decide
        rw [this]
        exact escGo_headOK cs
      · left
        simpa using hc
    have hcons : noDD (c :: escGo (c == '\\') cs) = true :=
      noDD_cons c _ hcT htail
    by_cases hres : reservedChars.contains c = true
    · have hmem : c ∈ reservedChars := by simpa using hres
      cases b with
      | false =>
        have : escGo false (c :: cs) = '\\' :: c :: escGo (c == '\\') cs := by
          simp [escGo, escChar, hmem]
        rw [this]
        apply noDD_cons
        · left; decide
        · exact hcons
      | true =>
        have : escGo true (c :: cs) = c :: escGo (c == '\\') cs := by
          simp [escGo, escChar, hmem]
        rw [this]
        exact hcons
    · have : escGo b (c :: cs) = c :: escGo (c == '\\') cs := by
        have hnm : c ∉ reservedChars := by simpa using hres
        simp [escGo, escChar, hnm]
      rw [this]
      exact hcons

theorem escape_noDD (s : List Char) : noDD (escapeMarkdownV2 s) = true :=
  escGo_noDD s false

theorem escape_headOK (s : List Char) : headOK (escapeMarkdownV2 s) = true :=
  escGo_headOK s

theorem headOK_append {s t : List Char} (hs : headOK s = true)
    (ht : headOK t = true) : headOK (s ++ t) = true := by
  cases s with
  | nil => simpa using ht
  | cons c cs => simpa [headOK] using hs

theorem noDD_append_headOK {s t : List Char} (hs : noDD s = true)
    (ht : noDD t = true) (hhd : headOK t = true) : noDD (s ++ t) = true := by
  induction s with
  | nil => simpa using ht
  | cons c cs ih =>
    have hs' : noDD cs = true := by
      simp only [noDD, Bool.and_eq_true] at hs
      exact hs.2
    rw [List.cons_append]
    apply noDD_cons _ _ _ (ih hs')
    cases cs with
    | nil =>
      right
      simpa using hhd
    | cons d ds =>
      simp only [noDD, Bool.and_eq_true, Bool.not_eq_true',
        Bool.and_eq_false_iff] at hs
      rcases hs.1 with h | h
      · exact Or.inl h
      · right
        simp only [List.cons_append, headOK]
        simp only [List.head?] at h
        simpa using h


/-! ## The streaming HTML transducer (`ElementHandler`, part_000 lines 155-211)

The rewriter drives the handler over the document: the element handler fires
at each element open (part_000 lines 165-185), the text handler at each text
node (lines 188-209; each text node is modelled as a single chunk with
`lastInTextNode = true`), and the `onEndTag` callback registered for `a`
fires at the anchor's close (lines 177-179).  `element.remove()` discards
the whole subtree, `element.removeAndKeepContent()` drops the tags and keeps
the children; a `br` element is left in place (neither call is made) and is
serialized as `<br>`.  Tag and attribute names are `List Char`;
`tagName.toLowerCase()` is the ASCII per-character lowering `lowerStr`.
HTML-entity decoding (`decode` of the `html-entities` import) is an
external collaborator and is a parameter `d` of the embedding. -/

/-- `tagName.toLowerCase()` (ASCII, as tag names are ASCII). -/
def lowerStr (s : List Char) : List Char := s.map Char.toLower

/-- `['style', 'script', 'meta', 'xml', 'head']` (part_000 line 166). -/
def skipTags : List (List Char) :=
  ["style".toList, "script".toList, "meta".toList, "xml".toList, "head".toList]

/-- `['img', 'video', 'iframe', 'audio']` (part_000 lines 181, 197). -/
def mediaTags : List (List Char) :=
  ["img".toList, "video".toList, "iframe".toList, "audio".toList]

/-- The inline-emphasis tag list of part_000 line 205. -/
def inlineTags : List (List Char) :=
  ["span".toList, "strong".toList, "em".toList, "b".toList, "i".toList,
   "del".toList, "ins".toList, "sub".toList, "sup".toList, "a".toList]

/-- The handler state (part_000 lines 156-161): current tag, pending anchor
target (`herf`), pending media source, and the inside-anchor flag.
`none` models JavaScript `null` (a missing attribute), `some []` the empty
string; both are falsy. -/
structure HState where
  tag : List Char
  herf : Option (List Char)
  src : Option (List Char)
  nestedInA : Bool
deriving DecidableEq

/-- The constructor state (part_000 lines 156-161): empty strings. -/
def initSt : HState := ⟨[], some [], some [], false⟩

/-- JavaScript truthiness of a string-or-null value. -/
def truthy : Option (List Char) → Bool
  | none => false
  | some l => !l.isEmpty

/-- One emission of the transducer: a literal run or a placeholder marker. -/
inductive Piece where
  | lit (s : List Char)
  | mark
deriving DecidableEq

def pieceStr : Piece → List Char
  | .lit s => s
  | .mark => marker

/-- The transducer's output text: the emissions concatenated in order. -/
def renderP : List Piece → List Char
  | [] => []
  | p :: ps => pieceStr p ++ renderP ps

/-- Number of marker pieces. -/
def nMarks : List Piece → Nat
  | [] => 0
  | Piece.mark :: ps => nMarks ps + 1
  | Piece.lit _ :: ps => nMarks ps

/-- An HTML node: an element with attributes and children, or a text node. -/
inductive HNode where
  | elem (tagName : List Char) (attrs : List (List Char × List Char))
      (children : List HNode)
  | txt (s : List Char)

/-- `element.getAttribute(name)`: the first attribute with that name, else
`null`. -/
def attrLookup (attrs : List (List Char × List Char)) (name : List Char) :
    Option (List Char) :=
  (attrs.find? (fun p => p.1 == name)).map (fun p => p.2)

/-- `String.prototype.trim` (part_000 line 191), with `Char.isWhitespace`
standing in for the JavaScript whitespace class. -/
def trimWS (s : List Char) : List Char :=
  ((s.dropWhile Char.isWhitespace).reverse.dropWhile Char.isWhitespace).reverse

/-- The fallback description `'link\-\>'` (part_000 line 191). -/
def fallbackDesc : List Char := ['l', 'i', 'n', 'k', '\\', '-', '\\', '>']

/-- The serialized form a `br` element keeps in the output stream
(part_000 lines 170-172 make no rewriter call for `br`). -/
def brChars : List Char := ['<', 'b', 'r', '>']

/-- The text handler (part_000 lines 188-209), for one whole text node
(`lastInTextNode = true`).  Returns the updated state, the emitted pieces
(the replacement plus, for `td`, the appended space), and the links pushed
onto `linksList`. -/
def handleText (d : List Char → List Char) (st : HState) (s : List Char) :
    HState × List Piece × List LinkD :=
  if st.tag == "a".toList && truthy st.herf then
    ({ st with herf := some [] }, [Piece.mark],
      [⟨if (trimWS (escapeMarkdownV2 (d s))).isEmpty then fallbackDesc
        else trimWS (escapeMarkdownV2 (d s)), st.herf.getD []⟩])
  else if mediaTags.contains st.tag && !st.nestedInA then
    if truthy st.src then
      ({ st with tag := [] }, [Piece.mark], [⟨st.tag, st.src.getD []⟩])
    else (st, [Piece.lit s], [])
  else if inlineTags.contains st.tag then
    (st, [Piece.lit (escapeMarkdownV2 (d s))], [])
  else
    (st, Piece.lit (escapeMarkdownV2 (d s) ++ ['\n']) ::
      (if st.tag == "td".toList then [Piece.lit [' ']] else []), [])

/-- The state updates of the element handler for a non-skipped, non-`br`
element (part_000 lines 173-183). -/
def elemSt (st : HState) (tn : List Char)
    (attrs : List (List Char × List Char)) : HState :=
  { tag := lowerStr tn
    herf := if tn == "a".toList then attrLookup attrs "href".toList else st.herf
    src := if mediaTags.contains (lowerStr tn) then attrLookup attrs "src".toList
           else st.src
    nestedInA := if tn == "a".toList then true else st.nestedInA }

mutual

/-- Processing of one node by the rewriter/handler pipeline: returns the
final handler state, the emitted pieces, and the pushed links. -/
def procNode (d : List Char → List Char) (st : HState) :
    HNode → HState × List Piece × List LinkD
  | HNode.txt s => handleText d st s
  | HNode.elem tn attrs children =>
    if skipTags.contains (lowerStr tn) then (st, [], [])
    else if lowerStr tn == "br".toList then
      ((procNodes d st children).1,
        Piece.lit brChars :: (procNodes d st children).2.1,
        (procNodes d st children).2.2)
    else
      (if tn == "a".toList
        then { (procNodes d (elemSt st tn attrs) children).1 with nestedInA := false }
        else (procNodes d (elemSt st tn attrs) children).1,
       (procNodes d (elemSt st tn attrs) children).2.1,
       (procNodes d (elemSt st tn attrs) children).2.2)

/-- Processing of a node list, threading the handler state. -/
def procNodes (d : List Char → List Char) (st : HState) :
    List HNode → HState × List Piece × List LinkD
  | [] => (st, [], [])
  | n :: ns =>
    ((procNodes d (procNode d st n).1 ns).1,
     (procNode d st n).2.1 ++ (procNodes d (procNode d st n).1 ns).2.1,
     (procNode d st n).2.2 ++ (procNodes d (procNode d st n).1 ns).2.2)

end

theorem procNodes_append (d : List Char → List Char) :
    ∀ (xs ys : List HNode) (st : HState),
      procNodes d st (xs ++ ys)
        = ((procNodes d (procNodes d st xs).1 ys).1,
           (procNodes d st xs).2.1 ++ (procNodes d (procNodes d st xs).1 ys).2.1,
           (procNodes d st xs).2.2 ++ (procNodes d (procNodes d st xs).1 ys).2.2) := by
  intro xs
  induction xs with
  | nil =>
    intro ys st
    simp [procNodes]
  | cons n ns ih =>
    intro ys st
    simp only [List.cons_append, procNodes, List.append_eq, ih, List.append_assoc]

theorem renderP_append : ∀ (ps qs : List Piece),
    renderP (ps ++ qs) = renderP ps ++ renderP qs := by
  intro ps
  induction ps with
  | nil => intro qs; rfl
  | cons p ps ih =>
    intro qs
    simp [renderP, ih, List.append_assoc]

theorem procNode_skip (d : List Char → List Char) (st : HState)
    (tn : List Char) (attrs : List (List Char × List Char)) (ch : List HNode)
    (h : skipTags.contains (lowerStr tn) = true) :
    procNode d st (HNode.elem tn attrs ch) = (st, [], []) := by
  have hmem : lowerStr tn ∈ skipTags := by simpa using h
  simp [procNode, hmem]

/-- **C8.** Text inside a `style` or `script` element never appears in the
transducer's output: `element.remove()` (part_000 lines 166-169) discards
the whole subtree, so the document processes exactly as if the element were
absent (state, output and link queue all unchanged). -/
theorem c8_style_script_excluded (d : List Char → List Char) (st : HState)
    (pre post : List HNode) (tn : List Char)
    (attrs : List (List Char × List Char)) (ch : List HNode)
    (h : lowerStr tn = "style".toList ∨ lowerStr tn = "script".toList) :
    procNodes d st (pre ++ HNode.elem tn attrs ch :: post)
      = procNodes d st (pre ++ post) := by
  have hskip : skipTags.contains (lowerStr tn) = true := by
    rcases h with h | h <;> simp [skipTags, h]
  rw [procNodes_append, procNodes_append]
  have hstep : ∀ st' : HState,
      procNodes d st' (HNode.elem tn attrs ch :: post) = procNodes d st' post := by
    intro st'
    simp only [procNodes, procNode_skip d st' tn attrs ch hskip]
    simp
  rw [hstep]

/-- Witness for C8 at a concrete input. -/
theorem c8_style_script_excluded_witness :
    (lowerStr "style".toList = "style".toList ∨
        lowerStr "style".toList = "script".toList) ∧
      procNodes (fun s => s) initSt
          ([HNode.txt ['x']] ++
            HNode.elem "style".toList [] [HNode.txt ['s', 'e', 'c']] ::
              [HNode.txt ['y']])
        = procNodes (fun s => s) initSt ([HNode.txt ['x']] ++ [HNode.txt ['y']]) :=
  ⟨Or.inl (by decide),
    c8_style_script_excluded (fun s => s) initSt [HNode.txt ['x']]
      [HNode.txt ['y']] "style".toList [] [HNode.txt ['s', 'e', 'c']]
      (Or.inl (by decide))⟩

/-! ## C10: media elements followed by no text node -/

mutual

def hasTextNode : HNode → Bool
  | HNode.txt _ => true
  | HNode.elem _ _ ch => hasTextNodes ch

def hasTextNodes : List HNode → Bool
  | [] => false
  | n :: ns => hasTextNode n || hasTextNodes ns

end

def hashFree (s : List Char) : Bool := s.all (fun c => !(c == '#'))

theorem countMGo_hashFree_zero :
    ∀ (t : List Char) (k : Nat), hashFree t = true → countMGo k t = 0 := by
  intro t
  induction t with
  | nil => intro k _; rfl
  | cons c cs ih =>
    intro k h
    have hc : ¬ c = '#' := by
      simp only [hashFree, List.all_cons, Bool.and_eq_true] at h
      simpa using h.1
    have hcs : hashFree cs = true := by
      simp only [hashFree, List.all_cons, Bool.and_eq_true] at h
      exact h.2
    simp [countMGo, hc, ih 0 hcs]

theorem countMGo_append_hashFree :
    ∀ (a : List Char) (k : Nat) (t : List Char), hashFree t = true →
      countMGo k (a ++ t) = countMGo k a := by
  intro a
  induction a with
  | nil =>
    intro k t ht
    rw [List.nil_append, countMGo_nil]
    exact countMGo_hashFree_zero t k ht
  | cons c cs ih =>
    intro k t ht
    by_cases hc : c = '#'
    · by_cases hk : k + 1 = 15
      · simp [countMGo, hc, hk, ih _ _ ht]
      · simp [countMGo, hc, hk, ih _ _ ht]
    · simp [countMGo, hc, ih _ _ ht]

theorem hashFree_append {a b : List Char} (ha : hashFree a = true)
    (hb : hashFree b = true) : hashFree (a ++ b) = true := by
  simp only [hashFree, List.all_append, Bool.and_eq_true]
  constructor
  · exact ha
  · exact hb

mutual

/-- A node containing no text produces no links and a `#`-free output. -/
theorem procNode_noText (d : List Char → List Char) (st : HState) :
    ∀ n : HNode, hasTextNode n = false →
      (procNode d st n).2.2 = [] ∧
        hashFree (renderP (procNode d st n).2.1) = true
  | HNode.txt _ => by
    intro h
    simp [hasTextNode] at h
  | HNode.elem tn attrs ch => by
    intro h
    have hch : hasTextNodes ch = false := by
      simpa [hasTextNode] using h
    by_cases hskip : lowerStr tn ∈ skipTags
    · rw [show procNode d st (HNode.elem tn attrs ch) = (st, [], []) from
        procNode_skip d st tn attrs ch (by simpa using hskip)]
      exact ⟨rfl, rfl⟩
    · by_cases hbr : lowerStr tn = "br".toList
      · have h1 := procNodes_noText d st ch hch
        have hbrskip : (['b', 'r'] : List Char) ∉ skipTags := by decide
        have hbr2 : lowerStr tn = ['b', 'r'] := by simpa using hbr
        have heq : procNode d st (HNode.elem tn attrs ch)
            = ((procNodes d st ch).1,
               Piece.lit brChars :: (procNodes d st ch).2.1,
               (procNodes d st ch).2.2) := by
          simp [procNode, hbr2, hbrskip]
        rw [heq]
        refine ⟨h1.1, ?_⟩
        rw [show renderP (Piece.lit brChars :: (procNodes d st ch).2.1)
            = brChars ++ renderP (procNodes d st ch).2.1 from rfl]
        exact hashFree_append (by decide) h1.2
      · have h1 := procNodes_noText d (elemSt st tn attrs) ch hch
        have hskipB : ¬ (skipTags.contains (lowerStr tn) = true) := by
          simpa using hskip
        have hbrB : ¬ ((lowerStr tn == "br".toList) = true) := by
          simpa using hbr
        have heq : (procNode d st (HNode.elem tn attrs ch)).2
            = (procNodes d (elemSt st tn attrs) ch).2 := by
          simp only [procNode]
          rw [if_neg hskipB, if_neg hbrB]
        rw [heq]
        exact h1

/-- A node list containing no text produces no links and a `#`-free
output. -/
theorem procNodes_noText (d : List Char → List Char) (st : HState) :
    ∀ ns : List HNode, hasTextNodes ns = false →
      (procNodes d st ns).2.2 = [] ∧
        hashFree (renderP (procNodes d st ns).2.1) = true
  | [] => by
    intro _
    exact ⟨rfl, rfl⟩
  | n :: ns => by
    intro h
    have hn : hasTextNode n = false := by
      simp only [hasTextNodes, Bool.or_eq_false_iff] at h
      exact h.1
    have hns : hasTextNodes ns = false := by
      simp only [hasTextNodes, Bool.or_eq_false_iff] at h
      exact h.2
    have h1 := procNode_noText d st n hn
    have h2 := procNodes_noText d (procNode d st n).1 ns hns
    refine ⟨?_, ?_⟩
    · show (procNode d st n).2.2 ++
          (procNodes d (procNode d st n).1 ns).2.2 = []
      rw [h1.1, h2.1]
      rfl
    · show hashFree (renderP ((procNode d st n).2.1 ++
          (procNodes d (procNode d st n).1 ns).2.1)) = true
      rw [renderP_append]
      exact hashFree_append h1.2 h2.2

end

theorem media_not_special (m : List Char) (hm : mediaTags.contains m = true) :
    skipTags.contains (lowerStr m) = false ∧
      (lowerStr m = "br".toList → False) := by
  have hm' : m = "img".toList ∨ m = "video".toList ∨ m = "iframe".toList ∨
      m = "audio".toList := by
    simpa [mediaTags] using hm
  rcases hm' with rfl | rfl | rfl | rfl <;> exact ⟨by decide, by decide⟩

theorem procNode_elem_nil_children (d : List Char → List Char) (st : HState)
    (tn : List Char) (attrs : List (List Char × List Char))
    (h1 : skipTags.contains (lowerStr tn) = false)
    (h2 : lowerStr tn = "br".toList → False) :
    (procNode d st (HNode.elem tn attrs [])).2.1 = [] ∧
      (procNode d st (HNode.elem tn attrs [])).2.2 = [] := by
  have h1B : ¬ (skipTags.contains (lowerStr tn) = true) := by
    rw [h1]
    simp
  have h2B : ¬ ((lowerStr tn == "br".toList) = true) := by
    simpa using h2
  have heq : (procNode d st (HNode.elem tn attrs [])).2
      = (procNodes d (elemSt st tn attrs) []).2 := by
    simp only [procNode]
    rw [if_neg h1B, if_neg h2B]
  rw [heq]
  exact ⟨rfl, rfl⟩

/-- **C10.** A media element (`img`/`video`/`iframe`/`audio`) that is
followed by no text node pushes no link descriptor and contributes no
placeholder marker: the media branch (part_000 lines 197-204) fires only
inside the text handler, and the element callback itself (lines 181-183)
only records state. -/
theorem c10_trailing_media (d : List Char → List Char) (st : HState)
    (pre suffix : List HNode) (m : List Char)
    (attrs : List (List Char × List Char))
    (hm : mediaTags.contains m = true) (hs : hasTextNodes suffix = false) :
    (procNodes d st (pre ++ HNode.elem m attrs [] :: suffix)).2.2
        = (procNodes d st pre).2.2 ∧
      countM (renderP (procNodes d st (pre ++ HNode.elem m attrs [] :: suffix)).2.1)
        = countM (renderP (procNodes d st pre).2.1) := by
  rw [procNodes_append]
  have hme := procNode_elem_nil_children d (procNodes d st pre).1 m attrs
    (media_not_special m hm).1 (media_not_special m hm).2
  have hsuf := procNodes_noText d
    (procNode d (procNodes d st pre).1 (HNode.elem m attrs [])).1 suffix hs
  have htailLinks :
      (procNodes d (procNodes d st pre).1 (HNode.elem m attrs [] :: suffix)).2.2
        = [] := by
    show (procNode d (procNodes d st pre).1 (HNode.elem m attrs [])).2.2 ++
        (procNodes d (procNode d (procNodes d st pre).1
          (HNode.elem m attrs [])).1 suffix).2.2 = []
    rw [hme.2, hsuf.1]
    rfl
  have htailHash :
      hashFree (renderP (procNodes d (procNodes d st pre).1
        (HNode.elem m attrs [] :: suffix)).2.1) = true := by
    show hashFree (renderP
      ((procNode d (procNodes d st pre).1 (HNode.elem m attrs [])).2.1 ++
        (procNodes d (procNode d (procNodes d st pre).1
          (HNode.elem m attrs [])).1 suffix).2.1)) = true
    rw [hme.1, renderP_append]
    rw [show renderP ([] : List Piece) = [] from rfl, List.nil_append]
    exact hsuf.2
  constructor
  · show (procNodes d st pre).2.2 ++
        (procNodes d (procNodes d st pre).1
          (HNode.elem m attrs [] :: suffix)).2.2
      = (procNodes d st pre).2.2
    rw [htailLinks]
    simp
  · show countM (renderP ((procNodes d st pre).2.1 ++
        (procNodes d (procNodes d st pre).1
          (HNode.elem m attrs [] :: suffix)).2.1))
      = countM (renderP (procNodes d st pre).2.1)
    rw [renderP_append]
    unfold countM
    exact countMGo_append_hashFree _ 0 _ htailHash

/-- Witness for C10 at a concrete input: a document that is just
`<img src="Y">`. -/
theorem c10_trailing_media_witness :
    mediaTags.contains "img".toList = true ∧ hasTextNodes [] = false ∧
      ((procNodes (fun s => s) initSt
            ([] ++ HNode.elem "img".toList [("src".toList, ['Y'])] [] :: [])).2.2
          = (procNodes (fun s => s) initSt []).2.2 ∧
        countM (renderP (procNodes (fun s => s) initSt
            ([] ++ HNode.elem "img".toList [("src".toList, ['Y'])] [] :: [])).2.1)
          = countM (renderP (procNodes (fun s => s) initSt []).2.1)) :=
  ⟨by decide, by decide,
    c10_trailing_media (fun s => s) initSt [] [] "img".toList
      [("src".toList, ['Y'])] (by decide) (by decide)⟩

/-! ## C6: anchors with an empty or missing target -/

/-- **C6.** An anchor whose `href` is missing (`null`) or empty pushes no
link descriptor and emits no placeholder marker; its text is emitted as
ordinary escaped text (the `a` branch of part_000 line 190 requires a
truthy `herf`, and `a` is in the inline list of line 205, so the text falls
through to `escapeMarkdownV2`). -/
theorem c6_anchor_no_target (d : List Char → List Char) (st : HState)
    (attrs : List (List Char × List Char)) (s : List Char)
    (h : attrLookup attrs ['h', 'r', 'e', 'f'] = none ∨
         attrLookup attrs ['h', 'r', 'e', 'f'] = some []) :
    (procNode d st (HNode.elem ['a'] attrs [HNode.txt s])).2.2 = [] ∧
      (procNode d st (HNode.elem ['a'] attrs [HNode.txt s])).2.1
        = [Piece.lit (escapeMarkdownV2 (d s))] ∧
      countM (renderP
        (procNode d st (HNode.elem ['a'] attrs [HNode.txt s])).2.1) = 0 := by
  have htr : truthy (attrLookup attrs ['h', 'r', 'e', 'f']) = false := by
    rcases h with h | h <;> rw [h] <;> rfl
  have hskipB : ¬ (skipTags.contains (lowerStr ['a']) = true) := by decide
  have hbrB : ¬ ((lowerStr ['a'] == "br".toList) = true) := by decide
  have hlow : lowerStr ['a'] = ['a'] := by decide
  have hmed : (['a'] : List Char) ∉ mediaTags := by decide
  have hinl : (['a'] : List Char) ∈ inlineTags := by decide
  have hst3 : elemSt st ['a'] attrs
      = ⟨['a'], attrLookup attrs ['h', 'r', 'e', 'f'], st.src, true⟩ := by
    simp [elemSt, hlow, hmed]
  have hht : handleText d ⟨['a'], attrLookup attrs ['h', 'r', 'e', 'f'], st.src, true⟩ s
      = (⟨['a'], attrLookup attrs ['h', 'r', 'e', 'f'], st.src, true⟩,
         [Piece.lit (escapeMarkdownV2 (d s))], []) := by
    unfold handleText
    simp [htr, hmed, hinl]
  have heq : (procNode d st (HNode.elem ['a'] attrs [HNode.txt s])).2
      = ([Piece.lit (escapeMarkdownV2 (d s))], []) := by
    simp only [procNode]
    rw [if_neg hskipB, if_neg hbrB]
    show (procNodes d (elemSt st ['a'] attrs) [HNode.txt s]).2 = _
    rw [hst3]
    simp only [procNodes, procNode, hht]
    simp
  refine ⟨?_, ?_, ?_⟩
  · show (procNode d st (HNode.elem ['a'] attrs [HNode.txt s])).2.2 = []
    rw [heq]
  · show (procNode d st (HNode.elem ['a'] attrs [HNode.txt s])).2.1 = _
    rw [heq]
  · rw [show (procNode d st (HNode.elem ['a'] attrs [HNode.txt s])).2.1
        = [Piece.lit (escapeMarkdownV2 (d s))] from by rw [heq]]
    show countM (escapeMarkdownV2 (d s) ++ []) = 0
    rw [List.append_nil]
    exact countM_of_clean (escape_noDD (d s)) (escape_headOK (d s))

/-- Witness for C6 at a concrete input: `<a>hi</a>` with no attributes. -/
theorem c6_anchor_no_target_witness :
    (attrLookup [] ['h', 'r', 'e', 'f'] = none ∨
        attrLookup [] ['h', 'r', 'e', 'f'] = some []) ∧
      ((procNode (fun s => s) initSt
            (HNode.elem ['a'] [] [HNode.txt ['h', 'i']])).2.2 = [] ∧
        (procNode (fun s => s) initSt
            (HNode.elem ['a'] [] [HNode.txt ['h', 'i']])).2.1
          = [Piece.lit (escapeMarkdownV2 ((fun s => s) ['h', 'i']))] ∧
        countM (renderP (procNode (fun s => s) initSt
            (HNode.elem ['a'] [] [HNode.txt ['h', 'i']])).2.1) = 0) :=
  ⟨Or.inl (by decide),
    c6_anchor_no_target (fun s => s) initSt [] ['h', 'i'] (Or.inl (by decide))⟩

/-! ## C5: media nested inside an anchor -/

/-- **C5 counterexample.** For the exact input
`<a href="X"><img src="Y"></a>` the transducer pushes *no* link descriptor
at all: the anchor contains no text node, the anchor branch of the text
handler (part_000 lines 190-196) therefore never fires, and the nested
media branch is suppressed while inside the anchor — so the claimed single
descriptor with target `X` does not exist. -/
theorem c5_counterexample :
    (procNodes (fun s => s) initSt
        [HNode.elem ['a'] [(['h', 'r', 'e', 'f'], ['X'])]
          [HNode.elem ['i', 'm', 'g'] [(['s', 'r', 'c'], ['Y'])] []]]).2.2.length
      = 0 := by
  decide

/-- **C5 (amended).** `<a href="X"><img src="Y"></a>` yields zero link
descriptors (no text node ever fires the text handler), and in particular
none with target `Y`; with any text inside the anchor before the media,
`<a href="X">t<img src="Y"></a>`, exactly one descriptor is pushed, whose
target is the anchor's `X` — the media source `Y` is suppressed by the
`nestedInA` flag (part_000 lines 176-179, 197). -/
theorem c5_nested_media :
    (procNodes (fun s => s) initSt
        [HNode.elem ['a'] [(['h', 'r', 'e', 'f'], ['X'])]
          [HNode.elem ['i', 'm', 'g'] [(['s', 'r', 'c'], ['Y'])] []]]).2.2 = [] ∧
      (procNodes (fun s => s) initSt
          [HNode.elem ['a'] [(['h', 'r', 'e', 'f'], ['X'])]
            [HNode.txt ['t'],
             HNode.elem ['i', 'm', 'g'] [(['s', 'r', 'c'], ['Y'])] []]]).2.2
        = [⟨['t'], ['X']⟩] := by
  constructor
  · decide
  · decide

/-! ## C2: marker/queue correspondence

A placeholder marker is emitted exactly when a descriptor is pushed
(part_000 lines 192-193 and 199-200), and escaped literals can never fake
a marker.  The one exception in the code is the media branch's raw
passthrough (lines 197-204: when `this.src` is falsy the text is neither
replaced nor escaped), so the correspondence is proved under the hypothesis
that every media element carries a non-empty `src` attribute, and refuted
without it. -/

/-- State invariant: whenever the current tag is a media tag, the pending
source is truthy (so the raw-passthrough branch of part_000 lines 198-203
cannot be reached). -/
def stInv (st : HState) : Bool :=
  !(mediaTags.contains st.tag) || truthy st.src

mutual

def mediaSrcOK : HNode → Bool
  | HNode.txt _ => true
  | HNode.elem tn attrs ch =>
    (!(mediaTags.contains (lowerStr tn)) ||
        truthy (attrLookup attrs "src".toList))
      && mediaSrcOKs ch

def mediaSrcOKs : List HNode → Bool
  | [] => true
  | n :: ns => mediaSrcOK n && mediaSrcOKs ns

end

/-- A piece that cannot disturb marker counting: a marker, or a literal
with no `##` and no leading `#`. -/
def pieceClean : Piece → Bool
  | Piece.mark => true
  | Piece.lit s => noDD s && headOK s

theorem countMGo_renderP_clean :
    ∀ ps : List Piece, ps.all pieceClean = true → ∀ k, k ≤ 14 →
      countMGo k (renderP ps) = nMarks ps := by
  intro ps
  induction ps with
  | nil => intro _ k _; rfl
  | cons p ps ih =>
    intro hall k hk
    have hp : pieceClean p = true ∧ ps.all pieceClean = true := by
      simpa [List.all_cons] using hall
    cases p with
    | mark =>
      show countMGo k (marker ++ renderP ps) = nMarks ps + 1
      rw [countMGo_marker k _ hk, ih hp.2 k hk]
    | lit s =>
      show countMGo k (s ++ renderP ps) = nMarks (Piece.lit s :: ps)
      have hdd : noDD s = true := by
        have := hp.1
        simp only [pieceClean, Bool.and_eq_true] at this
        exact this.1
      have hhd : headOK s = true := by
        have := hp.1
        simp only [pieceClean, Bool.and_eq_true] at this
        exact this.2
      cases s with
      | nil =>
        rw [List.nil_append]
        exact ih hp.2 k hk
      | cons c cs =>
        rw [scanNoDD (c :: cs) k (renderP ps) hdd (Or.inl hhd) hk (by simp)]
        have := ih hp.2 (hashTail (c :: cs))
          (Nat.le_trans (hashTail_le (c :: cs)) (by omega))
        exact this

theorem stInv_media_tag {st : HState} (h : stInv st = true)
    (hm : mediaTags.contains st.tag = true) : truthy st.src = true := by
  simp only [stInv, hm, Bool.not_true, Bool.false_or] at h
  exact h

mutual

/-- The invariant run: under `stInv` and `mediaSrcOK`, processing preserves
`stInv`, emits only clean pieces, and emits exactly one marker per pushed
link. -/
theorem procNode_inv (d : List Char → List Char) (st : HState) :
    ∀ n : HNode, stInv st = true → mediaSrcOK n = true →
      stInv (procNode d st n).1 = true ∧
        (procNode d st n).2.1.all pieceClean = true ∧
        nMarks (procNode d st n).2.1 = (procNode d st n).2.2.length
  | HNode.txt s => by
    intro hinv _
    show stInv (handleText d st s).1 = true ∧
      (handleText d st s).2.1.all pieceClean = true ∧
      nMarks (handleText d st s).2.1 = (handleText d st s).2.2.length
    unfold handleText
    by_cases h1 : (st.tag == "a".toList && truthy st.herf) = true
    · rw [if_pos h1]
      refine ⟨?_, rfl, rfl⟩
      show stInv ⟨st.tag, some [], st.src, st.nestedInA⟩ = true
      simpa [stInv] using hinv
    · rw [if_neg h1]
      by_cases h2 : (mediaTags.contains st.tag && !st.nestedInA) = true
      · rw [if_pos h2]
        have hmed : mediaTags.contains st.tag = true := by
          have := h2
          simp only [Bool.and_eq_true] at this
          exact this.1
        have hsrc : truthy st.src = true := stInv_media_tag hinv hmed
        rw [if_pos hsrc]
        refine ⟨?_, rfl, rfl⟩
        show stInv ⟨[], st.herf, st.src, st.nestedInA⟩ = true
        have hnil : mediaTags.contains ([] : List Char) = false := by decide
        simp [stInv, hnil, hsrc]
      · rw [if_neg h2]
        by_cases h3 : inlineTags.contains st.tag = true
        · rw [if_pos h3]
          refine ⟨by simpa [stInv] using hinv, ?_, rfl⟩
          simp only [List.all_cons, List.all_nil, Bool.and_true, pieceClean,
            Bool.and_eq_true]
          exact ⟨escape_noDD (d s), escape_headOK (d s)⟩
        · rw [if_neg h3]
          refine ⟨by simpa [stInv] using hinv, ?_, ?_⟩
          · have hclean1 : pieceClean
                (Piece.lit (escapeMarkdownV2 (d s) ++ ['\n'])) = true := by
              simp only [pieceClean, Bool.and_eq_true]
              constructor
              · exact noDD_append_headOK (escape_noDD (d s)) (by decide)
                  (by decide)
              · exact headOK_append (escape_headOK (d s)) (by decide)
            by_cases h4 : (st.tag == "td".toList) = true
            · rw [if_pos h4]
              simp only [List.all_cons, List.all_nil, Bool.and_true, hclean1,
                Bool.true_and]
              decide
            · rw [if_neg h4]
              simp [hclean1]
          · by_cases h4 : (st.tag == "td".toList) = true
            · rw [if_pos h4]
              rfl
            · rw [if_neg h4]
              rfl
  | HNode.elem tn attrs ch => by
    intro hinv hok
    have hchok : mediaSrcOKs ch = true := by
      have := hok
      simp only [mediaSrcOK, Bool.and_eq_true] at this
      exact this.2
    by_cases hskip : (skipTags.contains (lowerStr tn)) = true
    · rw [show procNode d st (HNode.elem tn attrs ch) = (st, [], []) from
        procNode_skip d st tn attrs ch hskip]
      exact ⟨hinv, rfl, rfl⟩
    · by_cases hbr : ((lowerStr tn == "br".toList)) = true
      · have hrec := procNodes_inv d st ch hinv hchok
        have heq : procNode d st (HNode.elem tn attrs ch)
            = ((procNodes d st ch).1,
               Piece.lit brChars :: (procNodes d st ch).2.1,
               (procNodes d st ch).2.2) := by
          simp only [procNode]
          rw [if_neg hskip, if_pos hbr]
        rw [heq]
        refine ⟨hrec.1, ?_, ?_⟩
        · simp only [List.all_cons, Bool.and_eq_true]
          exact ⟨by decide, hrec.2.1⟩
        · show nMarks ((procNodes d st ch).2.1) = (procNodes d st ch).2.2.length
          exact hrec.2.2
      · have hinv3 : stInv (elemSt st tn attrs) = true := by
          by_cases hm : mediaTags.contains (lowerStr tn) = true
          · have hsrc : truthy (attrLookup attrs "src".toList) = true := by
              have := hok
              simp only [mediaSrcOK, Bool.and_eq_true, Bool.or_eq_true,
                Bool.not_eq_true'] at this
              rcases this.1 with h | h
              · rw [hm] at h
                cases h
              · exact h
            show (!(mediaTags.contains (elemSt st tn attrs).tag) ||
              truthy (elemSt st tn attrs).src) = true
            have htag : (elemSt st tn attrs).tag = lowerStr tn := rfl
            have hsrceq : (elemSt st tn attrs).src
                = attrLookup attrs "src".toList := by
              show (if mediaTags.contains (lowerStr tn)
                then attrLookup attrs "src".toList else st.src) = _
              rw [if_pos hm]
            rw [htag, hsrceq, hsrc]
            simp
          · show (!(mediaTags.contains (elemSt st tn attrs).tag) ||
              truthy (elemSt st tn attrs).src) = true
            have htag : (elemSt st tn attrs).tag = lowerStr tn := rfl
            rw [htag]
            simp only [Bool.or_eq_true, Bool.not_eq_true']
            left
            simpa using hm
        have hrec := procNodes_inv d (elemSt st tn attrs) ch hinv3 hchok
        have heq : (procNode d st (HNode.elem tn attrs ch)).2
            = (procNodes d (elemSt st tn attrs) ch).2 := by
          simp only [procNode]
          rw [if_neg hskip, if_neg hbr]
        have heqst : stInv (procNode d st (HNode.elem tn attrs ch)).1 = true := by
          have hfin : (procNode d st (HNode.elem tn attrs ch)).1
              = (if tn == "a".toList
                  then { (procNodes d (elemSt st tn attrs) ch).1 with
                          nestedInA := false }
                  else (procNodes d (elemSt st tn attrs) ch).1) := by
            simp only [procNode]
            rw [if_neg hskip, if_neg hbr]
          rw [hfin]
          by_cases ha : (tn == "a".toList) = true
          · rw [if_pos ha]
            have : stInv { (procNodes d (elemSt st tn attrs) ch).1 with
                nestedInA := false }
              = stInv (procNodes d (elemSt st tn attrs) ch).1 := rfl
            rw [this]
            exact hrec.1
          · rw [if_neg ha]
            exact hrec.1
        refine ⟨heqst, ?_, ?_⟩
        · show (procNode d st (HNode.elem tn attrs ch)).2.1.all pieceClean = true
          rw [show (procNode d st (HNode.elem tn attrs ch)).2.1
              = (procNodes d (elemSt st tn attrs) ch).2.1 from by rw [heq]]
          exact hrec.2.1
        · rw [show (procNode d st (HNode.elem tn attrs ch)).2.1
              = (procNodes d (elemSt st tn attrs) ch).2.1 from by rw [heq],
            show (procNode d st (HNode.elem tn attrs ch)).2.2
              = (procNodes d (elemSt st tn attrs) ch).2.2 from by rw [heq]]
          exact hrec.2.2

theorem procNodes_inv (d : List Char → List Char) (st : HState) :
    ∀ ns : List HNode, stInv st = true → mediaSrcOKs ns = true →
      stInv (procNodes d st ns).1 = true ∧
        (procNodes d st ns).2.1.all pieceClean = true ∧
        nMarks (procNodes d st ns).2.1 = (procNodes d st ns).2.2.length
  | [] => by
    intro hinv _
    exact ⟨hinv, rfl, rfl⟩
  | n :: ns => by
    intro hinv hok
    have h1 : mediaSrcOK n = true := by
      have := hok
      simp only [mediaSrcOKs, Bool.and_eq_true] at this
      exact this.1
    have h2 : mediaSrcOKs ns = true := by
      have := hok
      simp only [mediaSrcOKs, Bool.and_eq_true] at this
      exact this.2
    have hn := procNode_inv d st n hinv h1
    have hns := procNodes_inv d (procNode d st n).1 ns hn.1 h2
    refine ⟨hns.1, ?_, ?_⟩
    · show ((procNode d st n).2.1 ++
          (procNodes d (procNode d st n).1 ns).2.1).all pieceClean = true
      simp only [List.all_append, Bool.and_eq_true]
      exact ⟨hn.2.1, hns.2.1⟩
    · show nMarks ((procNode d st n).2.1 ++
          (procNodes d (procNode d st n).1 ns).2.1)
        = ((procNode d st n).2.2 ++
          (procNodes d (procNode d st n).1 ns).2.2).length
      rw [List.length_append, ← hn.2.2, ← hns.2.2]
      clear hn hns
      generalize (procNode d st n).2.1 = xs
      generalize (procNodes d (procNode d st n).1 ns).2.1 = ys
      induction xs with
      | nil => simp [nMarks]
      | cons x xs ihx =>
        cases x with
        | mark => simp [nMarks, ihx]; omega
        | lit s => simp [nMarks, ihx]

end

/-- **C2 (amended).** For every HTML input in which every media element
carries a non-empty `src` attribute (so the raw passthrough of part_000
lines 198-203 never fires), the number of placeholder markers in the
transducer's output equals the number of descriptors pushed onto the link
queue — and since markers are scanned left to right while the queue is
FIFO, the i-th marker corresponds to the i-th descriptor. -/
theorem c2_marker_queue_correspondence (d : List Char → List Char)
    (doc : List HNode) (h : mediaSrcOKs doc = true) :
    countM (renderP (procNodes d initSt doc).2.1)
      = (procNodes d initSt doc).2.2.length := by
  have hinv := procNodes_inv d initSt doc (by decide) h
  unfold countM
  rw [countMGo_renderP_clean _ hinv.2.1 0 (by omega), hinv.2.2]

/-- Witness for C2 (amended) at a concrete input:
`<a href="h">hi</a>w`. -/
theorem c2_marker_queue_correspondence_witness :
    mediaSrcOKs
        [HNode.elem ['a'] [(['h', 'r', 'e', 'f'], ['h'])] [HNode.txt ['h', 'i']],
         HNode.txt ['w']] = true ∧
      countM (renderP (procNodes (fun s => s) initSt
          [HNode.elem ['a'] [(['h', 'r', 'e', 'f'], ['h'])] [HNode.txt ['h', 'i']],
           HNode.txt ['w']]).2.1)
        = (procNodes (fun s => s) initSt
          [HNode.elem ['a'] [(['h', 'r', 'e', 'f'], ['h'])] [HNode.txt ['h', 'i']],
           HNode.txt ['w']]).2.2.length :=
  ⟨by decide,
    c2_marker_queue_correspondence (fun s => s)
      [HNode.elem ['a'] [(['h', 'r', 'e', 'f'], ['h'])] [HNode.txt ['h', 'i']],
       HNode.txt ['w']] (by decide)⟩

/-- **C2 counterexample.** For the input `<img>` followed by a text node of
15 raw `#` characters, the media branch's raw passthrough (part_000
lines 198-203: `src` is `null`, so the text is neither replaced nor
escaped) leaves a spurious 15-`#` run in the output: one marker is counted
by the chunker's split, but no descriptor was pushed. -/
theorem c2_counterexample :
    ¬ (countM (renderP (procNodes (fun s => s) initSt
          [HNode.elem ['i', 'm', 'g'] [] [],
           HNode.txt (List.replicate 15 '#')]).2.1)
        = (procNodes (fun s => s) initSt
          [HNode.elem ['i', 'm', 'g'] [] [],
           HNode.txt (List.replicate 15 '#')]).2.2.length) := by
  decide

/-! ## C9: the `email` entry point's error handling (part_000 lines 239-305)

The control-flow skeleton of the handler: `parser.parse` runs at
lines 240-243, *before* the `try` block that starts at line 262, so a parse
failure propagates out of the handler uncaught.  Inside the try, the main
message is sent with `sendSplitMessage`; that function throws
`new Error(description)` when the *first* chunk's delivery fails
(line 84) and returns the last delivered id when a later chunk fails
(line 85).  A throw inside the try is caught at line 295 and a fallback
message annotated with `escapeMarkdownV2(error.message)` is sent with
`sendSplitMessage` again (lines 296-303) — and if that call throws in turn,
the error propagates.  Delivery success is an oracle (one Bool per HTTP
call), the transport's failure description another. -/

/-- The fields of the parsed email after the header formatting of part_000
lines 246-261 and the body processing of lines 262-272 (subject, from and
to lines, optional escaped date, the escaped body, the separator tag, and
the link queue that `processHtml` left in the module-scoped `linksList`). -/
structure ParsedEmail where
  subject : List Char
  fromLine : List Char
  toLine : List Char
  dateLine : Option (List Char)
  escaped : List Char
  separate : List Char
  queue : List LinkD

/-- The `fullMessageText` template of part_000 lines 275-281. -/
def buildFullMessage (pe : ParsedEmail) : List Char :=
  "📬 **新邮件**\n**".toList ++ pe.subject ++ "**\n**From:** ".toList ++
    pe.fromLine ++ "\n**To:** ".toList ++ pe.toLine ++
    (match pe.dateLine with
      | some dt => "\n**Date:** ".toList ++ dt
      | none => []) ++
    "\n\\-\\-\\-".toList ++ pe.separate ++ "\\-\\-\\-\n".toList ++
    pe.escaped ++ "\n      ".toList

/-- The header part of the fallback template of part_000 lines 296-302. -/
def fallbackHeader (pe : ParsedEmail) : List Char :=
  "\n📬 **新邮件**\n**".toList ++ pe.subject ++ "**\n**From:** ".toList ++
    pe.fromLine ++ "\n**To:** ".toList ++ pe.toLine ++
    (match pe.dateLine with
      | some dt => "\n**Date:** ".toList ++ dt
      | none => []) ++
    "\n\\-\\-\\-\\(解析正文错误\\)\\-\\-\\-\n".toList

/-- The fallback message of part_000 lines 296-303: the header fields plus
the error's message, escaped. -/
def buildFallback (pe : ParsedEmail) (msg : List Char) : List Char :=
  fallbackHeader pe ++ (escapeMarkdownV2 msg ++ "\n".toList)

/-- The send loop of `sendSplitMessage` (part_000 lines 66-89): one HTTP
call per chunk; `oracle i` tells whether the i-th call succeeds (the i-th
successful call yields message id `i + 1`).  On a failed call:
throw the transport's description if nothing was delivered yet
(line 84), otherwise return the last delivered id (line 85). -/
def sendChunksGo (oracle : Nat → Bool) (errDesc : Nat → List Char) :
    List (List Char) → Option Nat → Nat → Except (List Char) (Option Nat)
  | [], last, _ => Except.ok last
  | _ :: cs, last, i =>
    if oracle i then sendChunksGo oracle errDesc cs (some (i + 1)) (i + 1)
    else
      match last with
      | none => Except.error (errDesc i)
      | some m => Except.ok (some m)

/-- `sendSplitMessage` (part_000 lines 34-91): chunk, then send. -/
def sendSplitResult (oracle : Nat → Bool) (errDesc : Nat → List Char)
    (text : List Char) (q : List LinkD) : Except (List Char) (Option Nat) :=
  sendChunksGo oracle errDesc (makeChunks text q) none 0

/-- How one invocation of the `email` handler ends: normal completion or an
uncaught exception; either way, the texts passed to `sendSplitMessage` are
recorded in order. -/
inductive Outcome where
  | completed (calls : List (List Char))
  | thrown (err : List Char) (calls : List (List Char))
deriving DecidableEq

/-- The `email` handler (part_000 lines 239-305).  `parser.parse` is
modelled by its result; a parse error occurs before the `try` and therefore
escapes.  Attachment delivery (lines 288-293) never throws and is omitted.
The fallback's `sendSplitMessage` call consumes whatever the main call left
in the module-scoped `linksList`. -/
def emailHandler (parseRes : Except (List Char) ParsedEmail)
    (mainOracle fbOracle : Nat → Bool) (errDesc : Nat → List Char) : Outcome :=
  match parseRes with
  | Except.error e => Outcome.thrown e []
  | Except.ok pe =>
    match sendSplitResult mainOracle errDesc (buildFullMessage pe) pe.queue with
    | Except.ok _ => Outcome.completed [buildFullMessage pe]
    | Except.error msg =>
      match sendSplitResult fbOracle errDesc (buildFallback pe msg)
          (leftoverQueue (buildFullMessage pe) pe.queue) with
      | Except.ok _ =>
        Outcome.completed [buildFullMessage pe, buildFallback pe msg]
      | Except.error m2 =>
        Outcome.thrown m2 [buildFullMessage pe, buildFallback pe msg]

/-- **C9 counterexample.** A parse failure of the inbound email is *not*
caught: `parser.parse` (part_000 lines 240-243) runs before the `try` block
(line 262), so the handler throws past the top-level boundary and no
fallback notification is sent at all. -/
theorem c9_counterexample :
    emailHandler (Except.error "bad mime".toList) (fun _ => true) (fun _ => true)
        (fun _ => []) = Outcome.thrown "bad mime".toList [] := rfl

theorem sendChunksGo_all_ok (errDesc : Nat → List Char) :
    ∀ (cs : List (List Char)) (last : Option Nat) (i : Nat),
      ∃ r, sendChunksGo (fun _ => true) errDesc cs last i = Except.ok r := by
  intro cs
  induction cs with
  | nil => intro last i; exact ⟨last, rfl⟩
  | cons c cs ih =>
    intro last i
    simpa [sendChunksGo] using ih (some (i + 1)) (i + 1)

/-- **C9 (amended).** A delivery failure of the *first* segment of the main
message is caught: exactly one fallback notification, annotated with the
error's message (escaped), is sent, and — provided the fallback's own
delivery succeeds — the handler terminates normally.  (A parse failure, by
contrast, propagates: see the counterexample.) -/
theorem c9_first_segment_failure (pe : ParsedEmail) (errDesc : Nat → List Char)
    (h : makeChunks (buildFullMessage pe) pe.queue ≠ []) :
    emailHandler (Except.ok pe) (fun _ => false) (fun _ => true) errDesc
        = Outcome.completed [buildFullMessage pe, buildFallback pe (errDesc 0)] ∧
      hasSub (escapeMarkdownV2 (errDesc 0))
        (buildFallback pe (errDesc 0)) = true := by
  constructor
  · have hmain : sendSplitResult (fun _ => false) errDesc
        (buildFullMessage pe) pe.queue = Except.error (errDesc 0) := by
      unfold sendSplitResult
      cases hc : makeChunks (buildFullMessage pe) pe.queue with
      | nil => exact absurd hc h
      | cons c cs => rfl
    obtain ⟨r, hr⟩ := sendChunksGo_all_ok errDesc
      (makeChunks (buildFallback pe (errDesc 0))
        (leftoverQueue (buildFullMessage pe) pe.queue)) none 0
    have hfb : sendSplitResult (fun _ => true) errDesc
        (buildFallback pe (errDesc 0))
        (leftoverQueue (buildFullMessage pe) pe.queue) = Except.ok r := hr
    unfold emailHandler
    simp only [hmain, hfb]
  · exact hasSub_of_decomp' (escapeMarkdownV2 (errDesc 0)) (fallbackHeader pe) _

/-- Witness for C9 (amended) at a concrete input. -/
theorem c9_first_segment_failure_witness :
    makeChunks (buildFullMessage ⟨['s'], ['f'], ['t'], none, ['b'], ['x'], []⟩)
        [] ≠ [] ∧
      (emailHandler (Except.ok ⟨['s'], ['f'], ['t'], none, ['b'], ['x'], []⟩)
          (fun _ => false) (fun _ => true) (fun _ => ['E'])
        = Outcome.completed
            [buildFullMessage ⟨['s'], ['f'], ['t'], none, ['b'], ['x'], []⟩,
             buildFallback ⟨['s'], ['f'], ['t'], none, ['b'], ['x'], []⟩ ['E']] ∧
        hasSub (escapeMarkdownV2 ['E'])
          (buildFallback ⟨['s'], ['f'], ['t'], none, ['b'], ['x'], []⟩ ['E'])
          = true) :=
  ⟨by decide,
    c9_first_segment_failure ⟨['s'], ['f'], ['t'], none, ['b'], ['x'], []⟩
      (fun _ => ['E']) (by decide)⟩
